import Mathlib

/-!
Verification of the interactive line fitter (`src/interactive_line_fitter.py`).

The numerical core of the program is shallowly embedded here: real numbers are
modelled as exact rationals (`ℚ`), the Python list of clicked points as a
`List (ℚ × ℚ)`, and the mutable widget-bound fields (`self.points`,
`self.line_m`, `self.line_b`) as an explicit `AppState` record threaded through
the event handlers.  Handlers that can surface an error to the user (a message
box or an uncaught exception) return an outcome type recording both the message
path taken and the state it leaves behind.  UI plumbing (Tkinter widgets,
matplotlib artists, redraw calls) is not part of the embedding except where the
claims mention it: `on_click` reports whether the scatter was redrawn, which is
the handler's republish step.
-/

namespace LineFitter

/-- Python 3 `round` (also the rounding of `float` fixed-point formatting):
round to the nearest integer with ties going to the even integer, modelled
exactly over `ℚ`. -/
def pyRoundHalfEven (q : ℚ) : ℤ :=
  let f := q.floor
  let r := q - (f : ℚ)
  if r < 1/2 then f
  else if 1/2 < r then f + 1
  else if f % 2 = 0 then f else f + 1

/-- Three zero-padded decimal digits of `n % 1000` (the fractional part of a
`%.3f` rendering). -/
def pad3 (n : ℕ) : String :=
  String.mk [Nat.digitChar (n / 100 % 10), Nat.digitChar (n / 10 % 10), Nat.digitChar (n % 10)]

/-- Exact model of Python fixed-point formatting `f"{q:.3f}"`: the magnitude is
rounded to a whole number of thousandths (ties to even) and printed with
exactly three fractional digits; negative values get a leading minus sign. -/
def fmt3 (q : ℚ) : String :=
  let k := (pyRoundHalfEven ((|q|) * 1000)).toNat
  let mag := toString (k / 1000) ++ "." ++ pad3 (k % 1000)
  if q < 0 then "-" ++ mag else mag

/-- Embedding of `LineFitterApp.format_eq` (source lines 120–124): the equation display
string.  The sign character comes from Python's `b >= 0` test and the
intercept field shows `abs(b)`. -/
def format_eq (m b : ℚ) : String :=
  let m_str := fmt3 m
  let sign := if 0 ≤ b then "+" else "-"
  "y = " ++ m_str ++ "·x " ++ sign ++ " " ++ fmt3 (|b|)

/-- Embedding of `LineFitterApp.compute_loss` (source lines 126–134) with the implicit
`self` state made explicit: `None` when there are no points, otherwise
`np.mean(errors ** 2) / 2` where `errors = y - (m * x + b)` elementwise.
The numpy column reads and elementwise arithmetic are modelled by list maps
and `zipWith`; `np.mean` is the sum divided by the length. -/
def compute_loss (points : List (ℚ × ℚ)) (m b : ℚ) : Option ℚ :=
  if points.isEmpty then none
  else
    let x := points.map Prod.fst
    let y := points.map Prod.snd
    let y_pred := x.map (fun t => m * t + b)
    let errors := List.zipWith (fun a c => a - c) y y_pred
    some (((errors.map (fun e => e ^ 2)).sum / (errors.length : ℚ)) / 2)

/-- The state the claims are about: the clicked points (`self.points`) and the
current line parameters (`self.line_m`, `self.line_b`).  Widget mirrors of
these values (list-box rows, the spin-box `DoubleVar`s) are UI plumbing and
are not modelled. -/
structure AppState where
  points : List (ℚ × ℚ)
  line_m : ℚ
  line_b : ℚ
deriving DecidableEq

/-- Result of `LineFitterApp.fit_line`. -/
inductive FitOutcome where
  /-- The `messagebox.showinfo("Need More Points", ...)` early return
  (the spec's `InsufficientDataError`); carries the untouched state. -/
  | needMorePoints (s : AppState)
  /-- The spec's `DegenerateFitError`.  The constructor exists so that the
  spec's error taxonomy is statable; no code path produces it. -/
  | degenerateFit (s : AppState)
  /-- An `numpy.linalg.LinAlgError` raised inside `np.polyfit` escaping the
  handler as an uncaught exception, before the tuple unpacking
  `m, b = np.polyfit(...)` assigns anything; carries the untouched state. -/
  | linAlgError (s : AppState)
  /-- The fit succeeded and the slope/intercept were stored. -/
  | fitted (s : AppState)
deriving DecidableEq

/-- Whether a fit outcome is the spec's `DegenerateFitError` failure. -/
def isDegenerateFit : FitOutcome → Bool
  | .degenerateFit _ => true
  | _ => false

/-- Exact-arithmetic model of `np.polyfit(x, y, 1)`.  numpy builds the design
matrix with columns `x` and `1`, divides each column by its Euclidean norm
(`scale = sqrt((lhs*lhs).sum(axis=0)); lhs /= scale`), solves the
least-squares problem with `numpy.linalg.lstsq`, and rescales the
coefficients (`c = (c.T/scale).T`).

With a full-rank matrix the least-squares solution is unique and the column
scaling cancels, so the result is the textbook closed form of the `else`
branch (a theorem below proves that this closed form is the least-squares
minimiser).

When all entries of `x` coincide at a value `a` the matrix is rank-deficient
and `lstsq` returns the minimum-norm least-squares solution *of the scaled
problem*, issuing a `RankWarning` instead of raising.  For `a ≠ 0` the
column norms are `√n·|a|` and `√n`, every scaled row is
`w = (sign a/√n, 1/√n)`, the minimum-norm solution of `1ₙ wᵀ c = y` is
`ȳ·w/(wᵀw)` with `wᵀw = 2/n`, and unscaling componentwise gives exactly
`(ȳ/(2a), ȳ/2)` — the `then` branch.  For `a = 0` the first column norm is
`0`, `lhs /= scale` produces NaNs, and `lstsq` raises
`numpy.linalg.LinAlgError` — modelled as `none`. -/
def polyfit1 (x y : List ℚ) : Option (ℚ × ℚ) :=
  let n : ℚ := (x.length : ℚ)
  let sx := x.sum
  let sy := y.sum
  let sxx := (x.map (fun t => t ^ 2)).sum
  let sxy := (List.zipWith (fun a c => a * c) x y).sum
  let den := n * sxx - sx ^ 2
  if den = 0 then
    let a := x.headI
    if a = 0 then none
    else
      let ybar := sy / n
      some (ybar / (2 * a), ybar / 2)
  else
    let m := (n * sxy - sx * sy) / den
    some (m, (sy - m * sx) / n)

/-- Embedding of `LineFitterApp.fit_line` (source lines 211–223): fewer than two points
shows the "Need More Points" box and returns without touching any state;
otherwise `m, b = np.polyfit(x, y, 1)` either raises (the exception escapes
the handler with nothing assigned) or its result is stored into the line
parameters. -/
def fit_line (s : AppState) : FitOutcome :=
  if s.points.length < 2 then .needMorePoints s
  else
    let x := s.points.map Prod.fst
    let y := s.points.map Prod.snd
    match polyfit1 x y with
    | none => .linAlgError s
    | some mb => .fitted { s with line_m := mb.1, line_b := mb.2 }

/-- Result of `LineFitterApp.update_line_from_vars`. -/
inductive UpdateOutcome where
  /-- A numeric conversion failed (the `except ValueError` message box, or the
  `TclError` an unparsable spin-box raises out of the handler): the handler
  stops before `update_line_plot`; carries the state left behind. -/
  | invalidInput (s : AppState)
  /-- Both conversions succeeded and the line was updated. -/
  | updated (s : AppState)
deriving DecidableEq

/-- Embedding of `LineFitterApp.update_line_from_vars` (source lines 202–209) with the text
fields' conversion results passed in: `mVal`/`bVal` is `some v` when
`float(self.m_var.get())` / `float(self.b_var.get())` yields `v` and `none`
when the conversion raises.  The two assignments happen in source order:
`self.line_m` is assigned before `b` is even read, so a failure on `b`
leaves `line_m` already overwritten. -/
def update_line_from_vars (s : AppState) (mVal bVal : Option ℚ) : UpdateOutcome :=
  match mVal with
  | none => .invalidInput s
  | some m =>
    match bVal with
    | none => .invalidInput { s with line_m := m }
    | some b => .updated { s with line_m := m, line_b := b }

/-- Embedding of `LineFitterApp.on_click` (source lines 162–176) after the UI event guards
(`event.inaxes`, `None` coordinates): optional snap to the integer grid, the
bounds check, and the append.  Returns the new point list together with
whether the scatter was redrawn (the handler's republish step, skipped by
the out-of-bounds early return). -/
def on_click (points : List (ℚ × ℚ)) (x y : ℚ) (snap : Bool) : List (ℚ × ℚ) × Bool :=
  let x1 := if snap then ((pyRoundHalfEven x : ℤ) : ℚ) else x
  let y1 := if snap then ((pyRoundHalfEven y : ℤ) : ℚ) else y
  if x1 < -10 ∨ x1 > 10 ∨ y1 < -10 ∨ y1 > 10 then (points, false)
  else (points ++ [(x1, y1)], true)

/-- Embedding of `LineFitterApp.delete_selected` (source lines 185–192): the list-box
selection `sel` (ascending zero-based indices) is traversed in reverse and
each index deleted with `del self.points[idx]`. -/
def delete_selected (points : List (ℚ × ℚ)) (sel : List ℕ) : List (ℚ × ℚ) :=
  if sel.isEmpty then points
  else sel.reverse.foldl (fun l i => l.eraseIdx i) points

/-- Shift a set of indices past one consumed list element: every index is
decremented and index `0` disappears. -/
def decIdxs (sel : List ℕ) : List ℕ :=
  (sel.filter (fun j => j != 0)).map (fun j => j - 1)

/-- Written from the spec's words for `removeAt`: keep exactly the elements
whose zero-based position is not in `sel`, preserving the relative order of
the survivors. -/
def specRemove : List (ℚ × ℚ) → List ℕ → List (ℚ × ℚ)
  | [], _ => []
  | a :: l, sel =>
    if 0 ∈ sel then specRemove l (decIdxs sel) else a :: specRemove l (decIdxs sel)

/-- The spec's slope formula `m = (nΣxy − ΣxΣy) / (nΣx² − (Σx)²)`. -/
def specM (pts : List (ℚ × ℚ)) : ℚ :=
  ((pts.length : ℚ) * (pts.map (fun p => p.1 * p.2)).sum
      - (pts.map (fun p => p.1)).sum * (pts.map (fun p => p.2)).sum) /
    ((pts.length : ℚ) * (pts.map (fun p => p.1 ^ 2)).sum - ((pts.map (fun p => p.1)).sum) ^ 2)

/-- The spec's intercept formula `b = (Σy − mΣx)/n`. -/
def specB (pts : List (ℚ × ℚ)) : ℚ :=
  ((pts.map (fun p => p.2)).sum - specM pts * (pts.map (fun p => p.1)).sum) / (pts.length : ℚ)

/-- Sum of squared vertical residuals of the line `y = m·x + b` on `pts`. -/
def sse (pts : List (ℚ × ℚ)) (m b : ℚ) : ℚ :=
  (pts.map (fun p => (p.2 - (m * p.1 + b)) ^ 2)).sum

/-- The spec's loss formula `mean((y_i − (m·x_i + b))²) / 2`. -/
def specLoss (pts : List (ℚ × ℚ)) (m b : ℚ) : ℚ :=
  ((pts.map (fun p => (p.2 - (m * p.1 + b)) ^ 2)).sum / (pts.length : ℚ)) / 2

/-! ### Helper lemmas -/

/-- The executable `Rat.floor` is the `Int.floor` of the `FloorRing` instance on `ℚ`. -/
lemma rat_floor_eq_floor (q : ℚ) : q.floor = ⌊q⌋ := rfl

/-- Evaluation of `pyRoundHalfEven` below a half-tie. -/
lemma pyRoundHalfEven_of_lt (q : ℚ) (h : q - (⌊q⌋ : ℚ) < 1/2) :
    pyRoundHalfEven q = ⌊q⌋ := by
  have h' : q - ((q.floor : ℤ) : ℚ) < 1/2 := h
  simp only [pyRoundHalfEven]
  rw [if_pos h']
  rfl

/-- Evaluation of `pyRoundHalfEven` above a half-tie. -/
lemma pyRoundHalfEven_of_gt (q : ℚ) (h : 1/2 < q - (⌊q⌋ : ℚ)) :
    pyRoundHalfEven q = ⌊q⌋ + 1 := by
  have h1 : ¬ (q - ((q.floor : ℤ) : ℚ) < 1/2) := not_lt.2 (le_of_lt h)
  have h2 : (1:ℚ)/2 < q - ((q.floor : ℤ) : ℚ) := h
  simp only [pyRoundHalfEven]
  rw [if_neg h1, if_pos h2]
  rfl

/-- Evaluation of `pyRoundHalfEven` at a half-tie: the even neighbour wins. -/
lemma pyRoundHalfEven_of_tie (q : ℚ) (h : q - (⌊q⌋ : ℚ) = 1/2) :
    pyRoundHalfEven q = (if ⌊q⌋ % 2 = 0 then ⌊q⌋ else ⌊q⌋ + 1) := by
  have h1 : ¬ (q - ((q.floor : ℤ) : ℚ) < 1/2) := by
    rw [rat_floor_eq_floor, h]
    exact lt_irrefl _
  have h2 : ¬ ((1:ℚ)/2 < q - ((q.floor : ℤ) : ℚ)) := by
    rw [rat_floor_eq_floor, h]
    exact lt_irrefl _
  simp only [pyRoundHalfEven]
  rw [if_neg h1, if_neg h2]
  rfl

/-- Elementwise `y - (m·x + b)` over the two projected columns is the residual
map over the point list. -/
lemma zipWith_sub_residual (pts : List (ℚ × ℚ)) (m b : ℚ) :
    List.zipWith (fun a c => a - c) (pts.map Prod.snd)
        ((pts.map Prod.fst).map (fun t => m * t + b))
      = pts.map (fun p => p.2 - (m * p.1 + b)) := by
  induction pts with
  | nil => rfl
  | cons p ps ih => simp [ih]

/-- Shared evaluation of `compute_loss` on a non-empty point list. -/
lemma compute_loss_eq_specLoss (pts : List (ℚ × ℚ)) (m b : ℚ) (h : pts ≠ []) :
    compute_loss pts m b = some (specLoss pts m b) := by
  have hred : compute_loss pts m b
      = if pts.isEmpty then none
        else some (((List.map (fun e => e ^ 2)
            (List.zipWith (fun a c => a - c) (pts.map Prod.snd)
              ((pts.map Prod.fst).map (fun t => m * t + b)))).sum /
          (((List.zipWith (fun a c => a - c) (pts.map Prod.snd)
              ((pts.map Prod.fst).map (fun t => m * t + b))).length : ℕ) : ℚ)) / 2) := rfl
  rw [hred, if_neg (by simpa [List.isEmpty_iff] using h), zipWith_sub_residual]
  unfold specLoss
  simp only [List.map_map, Function.comp_def, List.length_map]

/-- Expansion of a sum of shifted squares. -/
lemma sum_sub_sq (l : List ℚ) (a : ℚ) :
    (l.map (fun t => (t - a) ^ 2)).sum
      = (l.map (fun t => t ^ 2)).sum - 2 * a * l.sum + (l.length : ℚ) * a ^ 2 := by
  induction l with
  | nil => simp
  | cons t ts ih =>
    simp only [List.map_cons, List.sum_cons, List.length_cons, ih]
    push_cast
    ring

/-- A sum of squares is non-negative. -/
lemma sum_sq_shift_nonneg (l : List ℚ) (a : ℚ) :
    0 ≤ (l.map (fun t => (t - a) ^ 2)).sum := by
  apply List.sum_nonneg
  intro u hu
  obtain ⟨t, -, rfl⟩ := List.mem_map.1 hu
  positivity

/-- The ordinary-least-squares denominator `n·Σx² − (Σx)²` is non-negative. -/
lemma den_nonneg (l : List ℚ) :
    0 ≤ (l.length : ℚ) * (l.map (fun t => t ^ 2)).sum - l.sum ^ 2 := by
  cases l with
  | nil => simp
  | cons t ts =>
    set l' := t :: ts
    have hn : (0 : ℚ) < (l'.length : ℚ) := by
      have : 0 < l'.length := List.length_pos.2 (by simp [l'])
      exact_mod_cast this
    have hne : (l'.length : ℚ) ≠ 0 := ne_of_gt hn
    have h0 := sum_sq_shift_nonneg l' (l'.sum / (l'.length : ℚ))
    rw [sum_sub_sq] at h0
    have h1 : (l'.map (fun u => u ^ 2)).sum - 2 * (l'.sum / (l'.length : ℚ)) * l'.sum
          + (l'.length : ℚ) * (l'.sum / (l'.length : ℚ)) ^ 2
        = ((l'.length : ℚ) * (l'.map (fun u => u ^ 2)).sum - l'.sum ^ 2) / (l'.length : ℚ) := by
      field_simp
      ring
    rw [h1] at h0
    have h2 := mul_nonneg h0 (le_of_lt hn)
    rwa [div_mul_cancel₀ _ hne] at h2

/-- The OLS denominator is strictly positive once two entries differ. -/
lemma den_pos (l : List ℚ) (hne : ∃ u ∈ l, ∃ v ∈ l, u ≠ v) :
    0 < (l.length : ℚ) * (l.map (fun t => t ^ 2)).sum - l.sum ^ 2 := by
  obtain ⟨u, hu, v, hv, huv⟩ := hne
  have hlne : l ≠ [] := by rintro rfl; simp at hu
  have hn : (0 : ℚ) < (l.length : ℚ) := by
    have : 0 < l.length := List.length_pos.2 hlne
    exact_mod_cast this
  have hnne : (l.length : ℚ) ≠ 0 := ne_of_gt hn
  have hone : ∃ w ∈ l, w ≠ l.sum / (l.length : ℚ) := by
    by_cases h : u = l.sum / (l.length : ℚ)
    · refine ⟨v, hv, fun hva => huv ?_⟩
      rw [h, hva]
    · exact ⟨u, hu, h⟩
  obtain ⟨w, hw, hwa⟩ := hone
  have hterm : 0 < (w - l.sum / (l.length : ℚ)) ^ 2 :=
    lt_of_le_of_ne (sq_nonneg _) (Ne.symm (pow_ne_zero 2 (sub_ne_zero.2 hwa)))
  have hsum : 0 < (l.map (fun t => (t - l.sum / (l.length : ℚ)) ^ 2)).sum := by
    have hmem : (w - l.sum / (l.length : ℚ)) ^ 2
        ∈ l.map (fun t => (t - l.sum / (l.length : ℚ)) ^ 2) := List.mem_map_of_mem _ hw
    have hall : ∀ x ∈ l.map (fun t => (t - l.sum / (l.length : ℚ)) ^ 2), 0 ≤ x := by
      intro x hx
      obtain ⟨t, -, rfl⟩ := List.mem_map.1 hx
      positivity
    exact lt_of_lt_of_le hterm (List.single_le_sum hall _ hmem)
  rw [sum_sub_sq] at hsum
  have h1 : (l.map (fun u => u ^ 2)).sum - 2 * (l.sum / (l.length : ℚ)) * l.sum
        + (l.length : ℚ) * (l.sum / (l.length : ℚ)) ^ 2
      = ((l.length : ℚ) * (l.map (fun u => u ^ 2)).sum - l.sum ^ 2) / (l.length : ℚ) := by
    field_simp
    ring
  rw [h1] at hsum
  have h2 := mul_pos hsum hn
  rwa [div_mul_cancel₀ _ hnne] at h2

/-- Sum of a constant list. -/
lemma sum_all_eq (l : List ℚ) (a : ℚ) (h : ∀ t ∈ l, t = a) :
    l.sum = (l.length : ℚ) * a := by
  induction l with
  | nil => simp
  | cons t ts ih =>
    have ht := h t (List.mem_cons_self t ts)
    have hts : ∀ u ∈ ts, u = a := fun u hu => h u (List.mem_cons_of_mem _ hu)
    simp only [List.sum_cons, List.length_cons, ih hts, ht]
    push_cast
    ring

/-- Fusion: the elementwise product of the two projected columns. -/
lemma zipWith_mul_fst_snd (pts : List (ℚ × ℚ)) :
    List.zipWith (fun a c => a * c) (pts.map Prod.fst) (pts.map Prod.snd)
      = pts.map (fun p => p.1 * p.2) := by
  induction pts with
  | nil => rfl
  | cons p ps ih => simp [ih]

/-- Evaluating `polyfit1` on the projected columns of a rank-deficient point list (all
x-coordinates equal to `a`): for `a ≠ 0` numpy's column-scaled minimum-norm
least-squares solution `(ȳ/(2a), ȳ/2)`, finite; for `a = 0` the
`LinAlgError` raised out of the NaN column scaling. -/
lemma polyfit1_rankdef (pts : List (ℚ × ℚ)) (a : ℚ) (hne : pts ≠ [])
    (hall : ∀ p ∈ pts, p.1 = a) :
    polyfit1 (pts.map Prod.fst) (pts.map Prod.snd)
      = if a = 0 then none
        else some ((pts.map Prod.snd).sum / (pts.length : ℚ) / (2 * a),
                   (pts.map Prod.snd).sum / (pts.length : ℚ) / 2) := by
  have hxall : ∀ t ∈ pts.map Prod.fst, t = a := by
    intro t ht
    obtain ⟨p, hp, rfl⟩ := List.mem_map.1 ht
    exact hall p hp
  have hxne : pts.map Prod.fst ≠ [] := by
    intro h
    exact hne (List.map_eq_nil_iff.1 h)
  have hs1 : (pts.map Prod.fst).sum = ((pts.map Prod.fst).length : ℚ) * a :=
    sum_all_eq _ a hxall
  have hs2 : ((pts.map Prod.fst).map (fun t => t ^ 2)).sum
      = ((pts.map Prod.fst).length : ℚ) * a ^ 2 := by
    have h2 : ∀ t ∈ (pts.map Prod.fst).map (fun t => t ^ 2), t = a ^ 2 := by
      intro t ht
      obtain ⟨u, hu, rfl⟩ := List.mem_map.1 ht
      rw [hxall u hu]
    have h3 := sum_all_eq _ (a ^ 2) h2
    rwa [List.length_map ((pts.map Prod.fst)) (fun t => t ^ 2)] at h3
  have hhead : (pts.map Prod.fst).headI = a := by
    cases hx : pts.map Prod.fst with
    | nil => exact absurd hx hxne
    | cons t ts =>
      have : t ∈ pts.map Prod.fst := by rw [hx]; exact List.mem_cons_self t ts
      exact hxall t this
  have hden0 : ((pts.map Prod.fst).length : ℚ) * ((pts.map Prod.fst).map (fun t => t ^ 2)).sum
      - (pts.map Prod.fst).sum ^ 2 = 0 := by
    rw [hs1, hs2]
    ring
  have hred : polyfit1 (pts.map Prod.fst) (pts.map Prod.snd)
      = if ((pts.map Prod.fst).length : ℚ) * ((pts.map Prod.fst).map (fun t => t ^ 2)).sum
            - (pts.map Prod.fst).sum ^ 2 = 0 then
          (if (pts.map Prod.fst).headI = 0 then none
           else some ((pts.map Prod.snd).sum / ((pts.map Prod.fst).length : ℚ) /
                (2 * (pts.map Prod.fst).headI),
              (pts.map Prod.snd).sum / ((pts.map Prod.fst).length : ℚ) / 2))
        else
          some ((((pts.map Prod.fst).length : ℚ)
                * (List.zipWith (fun a c => a * c) (pts.map Prod.fst) (pts.map Prod.snd)).sum
              - (pts.map Prod.fst).sum * (pts.map Prod.snd).sum) /
            (((pts.map Prod.fst).length : ℚ) * ((pts.map Prod.fst).map (fun t => t ^ 2)).sum
              - (pts.map Prod.fst).sum ^ 2),
           ((pts.map Prod.snd).sum
              - ((((pts.map Prod.fst).length : ℚ)
                    * (List.zipWith (fun a c => a * c) (pts.map Prod.fst) (pts.map Prod.snd)).sum
                  - (pts.map Prod.fst).sum * (pts.map Prod.snd).sum) /
                (((pts.map Prod.fst).length : ℚ) * ((pts.map Prod.fst).map (fun t => t ^ 2)).sum
                  - (pts.map Prod.fst).sum ^ 2)) * (pts.map Prod.fst).sum) /
            ((pts.map Prod.fst).length : ℚ)) := rfl
  rw [hred, if_pos hden0, hhead, List.length_map pts Prod.fst]

/-! ### Claim theorems -/

/-- Claim C5: with fewer than two points, `fit_line` takes the
"Need More Points" path: the error is surfaced and the state — both the point
set and the line parameters — is returned untouched. -/
theorem fit_line_insufficient (s : AppState) (h : s.points.length < 2) :
    fit_line s = .needMorePoints s := by
  unfold fit_line
  rw [if_pos h]

/-- Witness for C5 at the spec's example, the single point `(1, 1)`. -/
theorem fit_line_insufficient_witness :
    fit_line ⟨[(1, 1)], 1, 0⟩ = .needMorePoints ⟨[(1, 1)], 1, 0⟩ :=
  fit_line_insufficient ⟨[(1, 1)], 1, 0⟩ (by decide)

/-- Claim C4: `compute_loss` returns `none` (displayed "Loss: N/A", never `0`
and never a number) exactly on the empty point set, and on a non-empty set it
returns the spec's `mean((y_i − (m·x_i + b))²) / 2`. -/
theorem compute_loss_spec (pts : List (ℚ × ℚ)) (m b : ℚ) :
    (pts = [] → compute_loss pts m b = none) ∧
    (pts ≠ [] → compute_loss pts m b = some (specLoss pts m b)) := by
  constructor
  · rintro rfl
    rfl
  · exact compute_loss_eq_specLoss pts m b

/-- Witness for C4: the empty set gives `none`, a one-point set gives the
spec's value. -/
theorem compute_loss_spec_witness :
    compute_loss ([] : List (ℚ × ℚ)) 1 0 = none ∧
    compute_loss [((0 : ℚ), (1 : ℚ))] 1 0 = some (specLoss [(0, 1)] 1 0) :=
  ⟨(compute_loss_spec [] 1 0).1 rfl,
   (compute_loss_spec [(0, 1)] 1 0).2 (by simp)⟩

/-- Claim C10: on a non-empty point set the loss is defined and non-negative,
being a mean of squares divided by two. -/
theorem compute_loss_nonneg (pts : List (ℚ × ℚ)) (m b : ℚ) (h : pts ≠ []) :
    ∃ v, compute_loss pts m b = some v ∧ 0 ≤ v := by
  refine ⟨specLoss pts m b, compute_loss_eq_specLoss pts m b h, ?_⟩
  unfold specLoss
  have hsum : 0 ≤ (pts.map (fun p => (p.2 - (m * p.1 + b)) ^ 2)).sum := by
    apply List.sum_nonneg
    intro a ha
    obtain ⟨p, -, rfl⟩ := List.mem_map.1 ha
    positivity
  have hn : (0 : ℚ) ≤ (pts.length : ℚ) := by positivity
  positivity

/-- Witness for C10 at the one-point set `{(0, 5)}` with the initial line. -/
theorem compute_loss_nonneg_witness :
    ∃ v, compute_loss [((0 : ℚ), (5 : ℚ))] 1 0 = some v ∧ 0 ≤ v :=
  compute_loss_nonneg [(0, 5)] 1 0 (by simp)

/-- Claim C2 counterexample: with the slope text parsing to `2` and the
intercept text unparsable, the handler fails — but `line_m` has already been
overwritten (`self.line_m` is assigned before `b` is read), so the line
parameters are *not* left unchanged.  The claimed atomicity fails. -/
theorem update_line_partial_mutation :
    update_line_from_vars ⟨[], 1, 0⟩ (some 2) none = .invalidInput ⟨[], 2, 0⟩ ∧
    (⟨[], 2, 0⟩ : AppState) ≠ ⟨[], 1, 0⟩ := by
  refine ⟨rfl, fun h => ?_⟩
  have hm : (2 : ℚ) = 1 := congrArg AppState.line_m h
  norm_num at hm

/-- Claim C2 (amended): if the slope text does not parse, the handler fails
with the state fully unchanged; if the slope parses to `m` but the intercept
text does not parse, the handler fails with `line_m` already set to `m` and
`line_b` unchanged; if both parse, both parameters are set. -/
theorem update_line_cases (s : AppState) (mVal bVal : Option ℚ) :
    (mVal = none → update_line_from_vars s mVal bVal = .invalidInput s) ∧
    (∀ m, mVal = some m → bVal = none →
      update_line_from_vars s mVal bVal = .invalidInput { s with line_m := m }) ∧
    (∀ m b, mVal = some m → bVal = some b →
      update_line_from_vars s mVal bVal = .updated { s with line_m := m, line_b := b }) := by
  refine ⟨?_, ?_, ?_⟩
  · rintro rfl; rfl
  · rintro m rfl rfl; rfl
  · rintro m b rfl rfl; rfl

/-- Witness for C2 (amended): the three cases at concrete inputs. -/
theorem update_line_cases_witness :
    update_line_from_vars ⟨[], 1, 0⟩ none (some 7) = .invalidInput ⟨[], 1, 0⟩ ∧
    update_line_from_vars ⟨[], 1, 0⟩ (some 4) none = .invalidInput ⟨[], 4, 0⟩ ∧
    update_line_from_vars ⟨[], 1, 0⟩ (some 4) (some 7) = .updated ⟨[], 4, 7⟩ :=
  ⟨(update_line_cases ⟨[], 1, 0⟩ none (some 7)).1 rfl,
   (update_line_cases ⟨[], 1, 0⟩ (some 4) none).2.1 4 rfl rfl,
   (update_line_cases ⟨[], 1, 0⟩ (some 4) (some 7)).2.2 4 7 rfl rfl⟩

/-- Claim C6: the raw add path (`on_click` with snapping off, which is the
bounds-check-and-append of source lines 171–175): a point with both
coordinates in `[-10, 10]` is appended — the length grows by one and the point
occurs exactly once more than before — and a point with either coordinate
outside `[-10, 10]` leaves the list unchanged (and skips the redraw). -/
theorem on_click_add (pts : List (ℚ × ℚ)) (x y : ℚ) :
    (-10 ≤ x ∧ x ≤ 10 ∧ -10 ≤ y ∧ y ≤ 10 →
      on_click pts x y false = (pts ++ [(x, y)], true) ∧
      (pts ++ [(x, y)]).length = pts.length + 1 ∧
      (pts ++ [(x, y)]).count (x, y) = pts.count (x, y) + 1) ∧
    (x < -10 ∨ x > 10 ∨ y < -10 ∨ y > 10 →
      on_click pts x y false = (pts, false)) := by
  have hred : on_click pts x y false
      = if x < -10 ∨ x > 10 ∨ y < -10 ∨ y > 10 then (pts, false)
        else (pts ++ [(x, y)], true) := rfl
  constructor
  · rintro ⟨h1, h2, h3, h4⟩
    refine ⟨?_, by simp, by simp⟩
    rw [hred, if_neg]
    push_neg
    exact ⟨h1, h2, h3, h4⟩
  · intro h
    rw [hred, if_pos h]

/-- Witness for C6: an in-bounds click appends, an out-of-bounds click is a
no-op. -/
theorem on_click_add_witness :
    on_click [((0 : ℚ), (0 : ℚ))] 3 4 false = ([(0, 0), (3, 4)], true) ∧
    on_click [((0 : ℚ), (0 : ℚ))] 11 4 false = ([(0, 0)], false) :=
  ⟨((on_click_add [(0, 0)] 3 4).1 (by norm_num)).1,
   (on_click_add [(0, 0)] 11 4).2 (by norm_num)⟩

/-- Claim C7: with snapping enabled, `on_click` first rounds both coordinates
to the nearest integer (Python `round`: ties to even) and only then does the
bounds check and append — it behaves exactly like the raw path on the rounded
point; if the rounded point is out of bounds, the list is unchanged and no
redraw happens. -/
theorem on_click_snap (pts : List (ℚ × ℚ)) (x y : ℚ) :
    on_click pts x y true
      = on_click pts ((pyRoundHalfEven x : ℤ) : ℚ) ((pyRoundHalfEven y : ℤ) : ℚ) false ∧
    (((pyRoundHalfEven x : ℤ) : ℚ) < -10 ∨ ((pyRoundHalfEven x : ℤ) : ℚ) > 10 ∨
        ((pyRoundHalfEven y : ℤ) : ℚ) < -10 ∨ ((pyRoundHalfEven y : ℤ) : ℚ) > 10 →
      on_click pts x y true = (pts, false)) := by
  have hred : on_click pts x y true
      = if ((pyRoundHalfEven x : ℤ) : ℚ) < -10 ∨ ((pyRoundHalfEven x : ℤ) : ℚ) > 10 ∨
            ((pyRoundHalfEven y : ℤ) : ℚ) < -10 ∨ ((pyRoundHalfEven y : ℤ) : ℚ) > 10 then
          (pts, false)
        else (pts ++ [(((pyRoundHalfEven x : ℤ) : ℚ), ((pyRoundHalfEven y : ℤ) : ℚ))], true) := rfl
  constructor
  · rfl
  · intro h
    rw [hred, if_pos h]

/-- Witness for C7: `(1.5, 2.5)` snaps to `(2, 2)` (ties to even) and is
appended; `(10.8, 0)` snaps to `(11, 0)`, is rejected, and nothing changes. -/
theorem on_click_snap_witness :
    on_click [] (3/2 : ℚ) (5/2 : ℚ) true = ([((2 : ℚ), (2 : ℚ))], true) ∧
    on_click [] (54/5 : ℚ) 0 true = ([], false) := by
  have h32 : pyRoundHalfEven (3/2 : ℚ) = 2 := by
    have hf : ⌊(3/2 : ℚ)⌋ = 1 := by norm_num
    rw [pyRoundHalfEven_of_tie (3/2 : ℚ) (by rw [hf]; norm_num), hf]
    norm_num
  have h52 : pyRoundHalfEven (5/2 : ℚ) = 2 := by
    have hf : ⌊(5/2 : ℚ)⌋ = 2 := by norm_num
    rw [pyRoundHalfEven_of_tie (5/2 : ℚ) (by rw [hf]; norm_num), hf]
    norm_num
  have h108 : pyRoundHalfEven (54/5 : ℚ) = 11 := by
    have hf : ⌊(54/5 : ℚ)⌋ = 10 := by norm_num
    rw [pyRoundHalfEven_of_gt (54/5 : ℚ) (by rw [hf]; norm_num), hf]
    norm_num
  have h0 : pyRoundHalfEven (0 : ℚ) = 0 := by
    have hf : ⌊(0 : ℚ)⌋ = 0 := by norm_num
    rw [pyRoundHalfEven_of_lt (0 : ℚ) (by rw [hf]; norm_num), hf]
  constructor
  · rw [(on_click_snap [] (3/2 : ℚ) (5/2 : ℚ)).1, h32, h52]
    have hred : on_click ([] : List (ℚ × ℚ)) (((2 : ℤ) : ℚ)) (((2 : ℤ) : ℚ)) false
        = if ((2 : ℤ) : ℚ) < -10 ∨ ((2 : ℤ) : ℚ) > 10 ∨ ((2 : ℤ) : ℚ) < -10 ∨ ((2 : ℤ) : ℚ) > 10
          then (([] : List (ℚ × ℚ)), false)
          else ([(((2 : ℤ) : ℚ), ((2 : ℤ) : ℚ))], true) := rfl
    rw [hred, if_neg (by norm_num)]
    norm_num
  · refine (on_click_snap [] (54/5 : ℚ) 0).2 ?_
    rw [h108, h0]
    norm_num

/-- Claim C9: `format_eq` produces exactly the pattern
`"y = {m}·x {sign} {|b|}"`: the sign piece is `"+"` when `b` is non-negative
and `"-"` when `b` is negative, the intercept piece is the magnitude `|b|`
(so it never carries its own sign), and both numeric pieces are rendered by
the three-decimal renderer `fmt3`, whose fractional part is exactly three
digits. -/
theorem format_eq_spec (m b : ℚ) :
    (0 ≤ b → format_eq m b = "y = " ++ fmt3 m ++ "·x " ++ "+" ++ " " ++ fmt3 b) ∧
    (b < 0 → format_eq m b = "y = " ++ fmt3 m ++ "·x " ++ "-" ++ " " ++ fmt3 (-b)) ∧
    fmt3 (|b|) = toString ((pyRoundHalfEven ((|b|) * 1000)).toNat / 1000) ++ "." ++
      pad3 ((pyRoundHalfEven ((|b|) * 1000)).toNat % 1000) ∧
    (pad3 ((pyRoundHalfEven ((|b|) * 1000)).toNat % 1000)).length = 3 := by
  have hred : format_eq m b
      = "y = " ++ fmt3 m ++ "·x " ++ (if 0 ≤ b then "+" else "-") ++ " " ++ fmt3 (|b|) := rfl
  refine ⟨?_, ?_, ?_, rfl⟩
  · intro hb
    rw [hred, if_pos hb, abs_of_nonneg hb]
  · intro hb
    rw [hred, if_neg (not_le.2 hb), abs_of_neg hb]
  · have hneg : ¬ (|b| < 0) := not_lt.2 (abs_nonneg b)
    have habs : fmt3 (|b|)
        = if |b| < 0 then
            "-" ++ (toString ((pyRoundHalfEven ((|(|b|)|) * 1000)).toNat / 1000) ++ "." ++
              pad3 ((pyRoundHalfEven ((|(|b|)|) * 1000)).toNat % 1000))
          else toString ((pyRoundHalfEven ((|(|b|)|) * 1000)).toNat / 1000) ++ "." ++
            pad3 ((pyRoundHalfEven ((|(|b|)|) * 1000)).toNat % 1000) := rfl
    rw [habs, if_neg hneg, abs_abs]

/-- Witness for C9: `format_eq 1.5 (-2)` renders as `"y = 1.500·x - 2.000"`. -/
theorem format_eq_spec_witness :
    format_eq (3/2 : ℚ) (-2 : ℚ) = "y = 1.500·x - 2.000" := by
  have e1 : fmt3 (3/2 : ℚ) = "1.500" := by
    have hred : fmt3 (3/2 : ℚ)
        = if (3/2 : ℚ) < 0 then
            "-" ++ (toString ((pyRoundHalfEven ((|(3/2 : ℚ)|) * 1000)).toNat / 1000) ++ "." ++
              pad3 ((pyRoundHalfEven ((|(3/2 : ℚ)|) * 1000)).toNat % 1000))
          else toString ((pyRoundHalfEven ((|(3/2 : ℚ)|) * 1000)).toNat / 1000) ++ "." ++
            pad3 ((pyRoundHalfEven ((|(3/2 : ℚ)|) * 1000)).toNat % 1000) := rfl
    have habs : |(3/2 : ℚ)| * 1000 = 1500 := by
      rw [abs_of_nonneg (by norm_num : (0:ℚ) ≤ 3/2)]
      norm_num
    have hk : pyRoundHalfEven (1500 : ℚ) = 1500 := by
      have hf : ⌊(1500 : ℚ)⌋ = 1500 := by norm_num
      rw [pyRoundHalfEven_of_lt _ (by rw [hf]; norm_num), hf]
    rw [hred, if_neg (by norm_num), habs, hk]
    rfl
  have e2 : fmt3 (-(-2 : ℚ)) = "2.000" := by
    have hm : (-(-2 : ℚ)) = 2 := by norm_num
    have hred : fmt3 (2 : ℚ)
        = if (2 : ℚ) < 0 then
            "-" ++ (toString ((pyRoundHalfEven ((|(2 : ℚ)|) * 1000)).toNat / 1000) ++ "." ++
              pad3 ((pyRoundHalfEven ((|(2 : ℚ)|) * 1000)).toNat % 1000))
          else toString ((pyRoundHalfEven ((|(2 : ℚ)|) * 1000)).toNat / 1000) ++ "." ++
            pad3 ((pyRoundHalfEven ((|(2 : ℚ)|) * 1000)).toNat % 1000) := rfl
    have habs : |(2 : ℚ)| * 1000 = 2000 := by
      rw [abs_of_nonneg (by norm_num : (0:ℚ) ≤ 2)]
      norm_num
    have hk : pyRoundHalfEven (2000 : ℚ) = 2000 := by
      have hf : ⌊(2000 : ℚ)⌋ = 2000 := by norm_num
      rw [pyRoundHalfEven_of_lt _ (by rw [hf]; norm_num), hf]
    rw [hm, hred, if_neg (by norm_num), habs, hk]
    rfl
  have h := (format_eq_spec (3/2 : ℚ) (-2 : ℚ)).2.1 (by norm_num)
  rw [h, e1, e2]
  rfl

/-- Expansion of the sum of squared residuals around a base line. -/
lemma sse_shift (pts : List (ℚ × ℚ)) (m b u v : ℚ) :
    sse pts (m + u) (b + v)
      = sse pts m b
        - 2 * u * (pts.map (fun p => p.1 * (p.2 - (m * p.1 + b)))).sum
        - 2 * v * (pts.map (fun p => p.2 - (m * p.1 + b))).sum
        + u ^ 2 * (pts.map (fun p => p.1 ^ 2)).sum
        + 2 * u * v * (pts.map (fun p => p.1)).sum
        + (pts.length : ℚ) * v ^ 2 := by
  induction pts with
  | nil => simp [sse]
  | cons p ps ih =>
    simp only [sse, List.map_cons, List.sum_cons, List.length_cons] at ih ⊢
    push_cast
    linear_combination ih

/-- The residual sum in terms of the raw sums. -/
lemma sum_residual (pts : List (ℚ × ℚ)) (m b : ℚ) :
    (pts.map (fun p => p.2 - (m * p.1 + b))).sum
      = (pts.map (fun p => p.2)).sum - m * (pts.map (fun p => p.1)).sum
        - (pts.length : ℚ) * b := by
  induction pts with
  | nil => simp
  | cons p ps ih =>
    simp only [List.map_cons, List.sum_cons, List.length_cons, ih]
    push_cast
    ring

/-- The x-weighted residual sum in terms of the raw sums. -/
lemma sum_x_residual (pts : List (ℚ × ℚ)) (m b : ℚ) :
    (pts.map (fun p => p.1 * (p.2 - (m * p.1 + b)))).sum
      = (pts.map (fun p => p.1 * p.2)).sum - m * (pts.map (fun p => p.1 ^ 2)).sum
        - b * (pts.map (fun p => p.1)).sum := by
  induction pts with
  | nil => simp
  | cons p ps ih =>
    simp only [List.map_cons, List.sum_cons, ih]
    ring

/-- A non-empty point list has non-zero rational length. -/
lemma length_ne_zero_of_ne_nil (pts : List (ℚ × ℚ)) (h : pts ≠ []) :
    ((pts.length : ℕ) : ℚ) ≠ 0 := by
  have : 0 < pts.length := List.length_pos.2 h
  exact_mod_cast Nat.pos_iff_ne_zero.1 this

/-- The normal equations hold at the spec's closed-form solution. -/
lemma normal_equations (pts : List (ℚ × ℚ))
    (hden : (pts.length : ℚ) * (pts.map (fun p => p.1 ^ 2)).sum
        - ((pts.map (fun p => p.1)).sum) ^ 2 ≠ 0) :
    (pts.map (fun p => p.2 - (specM pts * p.1 + specB pts))).sum = 0 ∧
    (pts.map (fun p => p.1 * (p.2 - (specM pts * p.1 + specB pts)))).sum = 0 := by
  have hne : pts ≠ [] := by
    rintro rfl
    simp at hden
  have hn : ((pts.length : ℕ) : ℚ) ≠ 0 := length_ne_zero_of_ne_nil pts hne
  constructor
  · rw [sum_residual]
    unfold specB
    field_simp
  · rw [sum_x_residual]
    unfold specB specM
    field_simp
    ring

/-- The quadratic form appearing in `sse_shift` is non-negative when the OLS
denominator is. -/
lemma quad_form_nonneg (n sxx sx u v : ℚ) (hn : 0 < n) (hden : 0 ≤ n * sxx - sx ^ 2) :
    0 ≤ u ^ 2 * sxx + 2 * u * v * sx + n * v ^ 2 := by
  have key : n * (u ^ 2 * sxx + 2 * u * v * sx + n * v ^ 2)
      = u ^ 2 * (n * sxx - sx ^ 2) + (u * sx + n * v) ^ 2 := by
    ring
  have h1 : 0 ≤ n * (u ^ 2 * sxx + 2 * u * v * sx + n * v ^ 2) := by
    rw [key]
    exact add_nonneg (mul_nonneg (sq_nonneg u) hden) (sq_nonneg _)
  nlinarith [h1, hn]

/-- With at least two points and `np.polyfit` returning a pair, `fit_line`
stores that pair. -/
lemma fit_line_of_polyfit_some (s : AppState) (h2 : 2 ≤ s.points.length) (mb : ℚ × ℚ)
    (h : polyfit1 (s.points.map Prod.fst) (s.points.map Prod.snd) = some mb) :
    fit_line s = .fitted { s with line_m := mb.1, line_b := mb.2 } := by
  have hred : fit_line s
      = if s.points.length < 2 then .needMorePoints s
        else
          match polyfit1 (s.points.map Prod.fst) (s.points.map Prod.snd) with
          | none => .linAlgError s
          | some p => .fitted { s with line_m := p.1, line_b := p.2 } := rfl
  rw [hred, if_neg (not_lt.2 h2), h]

/-- With at least two points and `np.polyfit` raising, the exception escapes
the handler with the state untouched. -/
lemma fit_line_of_polyfit_none (s : AppState) (h2 : 2 ≤ s.points.length)
    (h : polyfit1 (s.points.map Prod.fst) (s.points.map Prod.snd) = none) :
    fit_line s = .linAlgError s := by
  have hred : fit_line s
      = if s.points.length < 2 then .needMorePoints s
        else
          match polyfit1 (s.points.map Prod.fst) (s.points.map Prod.snd) with
          | none => .linAlgError s
          | some p => .fitted { s with line_m := p.1, line_b := p.2 } := rfl
  rw [hred, if_neg (not_lt.2 h2), h]

/-- Evaluating `polyfit1` on the projected columns of a full-rank point list is the
spec's closed-form OLS pair. -/
lemma polyfit1_spec (pts : List (ℚ × ℚ))
    (hden : (pts.length : ℚ) * (pts.map (fun p => p.1 ^ 2)).sum
        - ((pts.map (fun p => p.1)).sum) ^ 2 ≠ 0) :
    polyfit1 (pts.map Prod.fst) (pts.map Prod.snd) = some (specM pts, specB pts) := by
  have hx2 : ((pts.map Prod.fst).map (fun t => t ^ 2)).sum = (pts.map (fun p => p.1 ^ 2)).sum := by
    rw [List.map_map]
    rfl
  have hxy : (List.zipWith (fun a c => a * c) (pts.map Prod.fst) (pts.map Prod.snd)).sum
      = (pts.map (fun p => p.1 * p.2)).sum := by rw [zipWith_mul_fst_snd]
  have hlen : ((pts.map Prod.fst).length : ℚ) = (pts.length : ℚ) := by
    rw [List.length_map]
  have hsx : (pts.map Prod.fst).sum = (pts.map (fun p => p.1)).sum := rfl
  have hsy : (pts.map Prod.snd).sum = (pts.map (fun p => p.2)).sum := rfl
  have hred : polyfit1 (pts.map Prod.fst) (pts.map Prod.snd)
      = if ((pts.map Prod.fst).length : ℚ) * ((pts.map Prod.fst).map (fun t => t ^ 2)).sum
            - (pts.map Prod.fst).sum ^ 2 = 0 then
          (if (pts.map Prod.fst).headI = 0 then none
           else some ((pts.map Prod.snd).sum / ((pts.map Prod.fst).length : ℚ) /
                (2 * (pts.map Prod.fst).headI),
              (pts.map Prod.snd).sum / ((pts.map Prod.fst).length : ℚ) / 2))
        else
          some ((((pts.map Prod.fst).length : ℚ)
                * (List.zipWith (fun a c => a * c) (pts.map Prod.fst) (pts.map Prod.snd)).sum
              - (pts.map Prod.fst).sum * (pts.map Prod.snd).sum) /
            (((pts.map Prod.fst).length : ℚ) * ((pts.map Prod.fst).map (fun t => t ^ 2)).sum
              - (pts.map Prod.fst).sum ^ 2),
           ((pts.map Prod.snd).sum
              - ((((pts.map Prod.fst).length : ℚ)
                    * (List.zipWith (fun a c => a * c) (pts.map Prod.fst) (pts.map Prod.snd)).sum
                  - (pts.map Prod.fst).sum * (pts.map Prod.snd).sum) /
                (((pts.map Prod.fst).length : ℚ) * ((pts.map Prod.fst).map (fun t => t ^ 2)).sum
                  - (pts.map Prod.fst).sum ^ 2)) * (pts.map Prod.fst).sum) /
            ((pts.map Prod.fst).length : ℚ)) := rfl
  rw [hred, hx2, hxy, hlen, hsx, hsy, if_neg hden]
  rfl

/-- Claim C3: on a point set with at least two points and not all
x-coordinates equal, `fit_line` succeeds and stores exactly the spec's
closed-form OLS coefficients `m = (nΣxy − ΣxΣy)/(nΣx² − (Σx)²)` and
`b = (Σy − mΣx)/n` — and this pair really is a least-squares fit: its sum of
squared residuals is minimal among all lines. -/
theorem fit_line_ols (s : AppState) (h2 : 2 ≤ s.points.length)
    (hx : ∃ p ∈ s.points, ∃ q ∈ s.points, p.1 ≠ q.1) :
    fit_line s = .fitted { s with line_m := specM s.points, line_b := specB s.points } ∧
    ∀ m b : ℚ, sse s.points (specM s.points) (specB s.points) ≤ sse s.points m b := by
  have hxl : ∃ u ∈ s.points.map (fun p => p.1), ∃ v ∈ s.points.map (fun p => p.1), u ≠ v := by
    obtain ⟨p, hp, q, hq, hne⟩ := hx
    exact ⟨p.1, List.mem_map_of_mem _ hp, q.1, List.mem_map_of_mem _ hq, hne⟩
  have hD0 := den_pos (s.points.map (fun p => p.1)) hxl
  rw [List.length_map, List.map_map] at hD0
  have hD : 0 < (s.points.length : ℚ) * (s.points.map (fun p => p.1 ^ 2)).sum
      - ((s.points.map (fun p => p.1)).sum) ^ 2 := hD0
  have hDne := ne_of_gt hD
  constructor
  · exact fit_line_of_polyfit_some s h2 (specM s.points, specB s.points)
      (polyfit1_spec s.points hDne)
  · intro m b
    have hne : s.points ≠ [] := by
      intro hnil
      rw [hnil] at h2
      simp at h2
    have hn : (0 : ℚ) < (s.points.length : ℚ) := by
      have : 0 < s.points.length := List.length_pos.2 hne
      exact_mod_cast this
    obtain ⟨hnorm1, hnorm2⟩ := normal_equations s.points hDne
    have key := sse_shift s.points (specM s.points) (specB s.points)
      (m - specM s.points) (b - specB s.points)
    rw [hnorm1, hnorm2] at key
    have hm : specM s.points + (m - specM s.points) = m := by ring
    have hb : specB s.points + (b - specB s.points) = b := by ring
    rw [hm, hb] at key
    have hq := quad_form_nonneg (s.points.length : ℚ)
      ((s.points.map (fun p => p.1 ^ 2)).sum) ((s.points.map (fun p => p.1)).sum)
      (m - specM s.points) (b - specB s.points) hn (le_of_lt hD)
    nlinarith [key, hq]

/-- Witness for C3 at the spec's example `(0,3), (1,5), (2,7)` on the line
`y = 2x + 3`: the fit stores exactly `m = 2`, `b = 3` (so certainly within
the spec's `1e-9` tolerance), and its residual sum is no worse than that of
the initial line `y = x`. -/
theorem fit_line_ols_witness :
    fit_line ⟨[((0 : ℚ), (3 : ℚ)), (1, 5), (2, 7)], 1, 0⟩
      = .fitted ⟨[(0, 3), (1, 5), (2, 7)], 2, 3⟩ ∧
    sse [((0 : ℚ), (3 : ℚ)), (1, 5), (2, 7)] 2 3
      ≤ sse [((0 : ℚ), (3 : ℚ)), (1, 5), (2, 7)] 1 0 := by
  have hhyp : ∃ p ∈ [((0 : ℚ), (3 : ℚ)), (1, 5), (2, 7)],
      ∃ q ∈ [((0 : ℚ), (3 : ℚ)), (1, 5), (2, 7)], p.1 ≠ q.1 := by
    refine ⟨(0, 3), by simp, (1, 5), by simp, by norm_num⟩
  have h := fit_line_ols ⟨[((0 : ℚ), (3 : ℚ)), (1, 5), (2, 7)], 1, 0⟩ (by simp) hhyp
  have hm : specM [((0 : ℚ), (3 : ℚ)), (1, 5), (2, 7)] = 2 := by
    unfold specM
    norm_num
  have hb : specB [((0 : ℚ), (3 : ℚ)), (1, 5), (2, 7)] = 3 := by
    unfold specB
    rw [hm]
    norm_num
  constructor
  · have h1 := h.1
    rw [hm, hb] at h1
    exact h1
  · have h2 := h.2 1 0
    rw [hm, hb] at h2
    exact h2

/-- Claim C1 counterexample: at the spec's own example — two points sharing
`x = 5` — `fit_line` does *not* fail with a `DegenerateFitError`: `np.polyfit`
takes its rank-deficient column-scaled least-squares path (a `RankWarning`,
not an exception) and the handler silently stores the finite pair
`(3/20, 3/4)` into the line parameters. -/
theorem fit_line_identical_x_counterexample :
    fit_line ⟨[((5 : ℚ), (1 : ℚ)), (5, 2)], 1, 0⟩
      = .fitted ⟨[(5, 1), (5, 2)], 3/20, 3/4⟩ ∧
    isDegenerateFit (fit_line ⟨[((5 : ℚ), (1 : ℚ)), (5, 2)], 1, 0⟩) = false := by
  have hall : ∀ p ∈ [((5 : ℚ), (1 : ℚ)), (5, 2)], p.1 = 5 := by
    intro p hp
    simp only [List.mem_cons, List.mem_singleton, List.not_mem_nil, or_false] at hp
    rcases hp with h | h <;> simp [h]
  have hp : polyfit1 ([((5 : ℚ), (1 : ℚ)), (5, 2)].map Prod.fst)
      ([((5 : ℚ), (1 : ℚ)), (5, 2)].map Prod.snd) = some (3/20, 3/4) := by
    rw [polyfit1_rankdef [((5 : ℚ), (1 : ℚ)), (5, 2)] 5 (by simp) hall]
    rw [if_neg (by norm_num : (5 : ℚ) ≠ 0)]
    norm_num [List.map_cons, List.map_nil, List.sum_cons, List.sum_nil,
      List.length_cons, List.length_nil, Prod.mk.injEq]
  have hmain := fit_line_of_polyfit_some ⟨[((5 : ℚ), (1 : ℚ)), (5, 2)], 1, 0⟩
    (by norm_num) (3/20, 3/4) hp
  exact ⟨hmain, by rw [hmain]; simp [isDegenerateFit]⟩

/-- Claim C1 (amended): on a point set with at least two points all sharing
the x-coordinate `a`, `fit_line` never fails with a `DegenerateFitError` (no
code path produces one).  For `a ≠ 0` it silently succeeds, storing numpy's
finite column-scaled minimum-norm least-squares pair `(ȳ/(2a), ȳ/2)` — no
NaN reaches the line parameters in this exact-arithmetic model.  For `a = 0`
numpy's column scaling divides by zero and `lstsq` raises a `LinAlgError`,
which escapes the handler before the tuple unpacking assigns anything, so
the state is untouched. -/
theorem fit_line_identical_x (s : AppState) (a : ℚ) (h2 : 2 ≤ s.points.length)
    (hall : ∀ p ∈ s.points, p.1 = a) :
    (a ≠ 0 → fit_line s = .fitted { s with
      line_m := (s.points.map Prod.snd).sum / (s.points.length : ℚ) / (2 * a),
      line_b := (s.points.map Prod.snd).sum / (s.points.length : ℚ) / 2 }) ∧
    (a = 0 → fit_line s = .linAlgError s) ∧
    isDegenerateFit (fit_line s) = false := by
  have hne : s.points ≠ [] := by
    intro h
    rw [h] at h2
    simp at h2
  have hp := polyfit1_rankdef s.points a hne hall
  by_cases ha : a = 0
  · rw [if_pos ha] at hp
    have hfit := fit_line_of_polyfit_none s h2 hp
    refine ⟨fun hcon => absurd ha hcon, fun _ => hfit, ?_⟩
    rw [hfit]
    simp [isDegenerateFit]
  · rw [if_neg ha] at hp
    have hfit := fit_line_of_polyfit_some s h2 _ hp
    refine ⟨fun _ => hfit, fun hcon => absurd hcon ha, ?_⟩
    rw [hfit]
    simp [isDegenerateFit]

/-- Witness for C1 (amended): at the spec's example `(5,1), (5,2)` the finite
pair `(3/20, 3/4)` is stored; at `(0,1), (0,2)` the `LinAlgError` escapes with
the state untouched; neither is a `DegenerateFitError`. -/
theorem fit_line_identical_x_witness :
    fit_line ⟨[((5 : ℚ), (1 : ℚ)), (5, 2)], 1, 0⟩
      = .fitted ⟨[(5, 1), (5, 2)], 3/20, 3/4⟩ ∧
    fit_line ⟨[((0 : ℚ), (1 : ℚ)), (0, 2)], 1, 0⟩
      = .linAlgError ⟨[(0, 1), (0, 2)], 1, 0⟩ ∧
    isDegenerateFit (fit_line ⟨[((5 : ℚ), (1 : ℚ)), (5, 2)], 1, 0⟩) = false := by
  have hall5 : ∀ p ∈ [((5 : ℚ), (1 : ℚ)), (5, 2)], p.1 = 5 := by
    intro p hp
    simp only [List.mem_cons, List.mem_singleton, List.not_mem_nil, or_false] at hp
    rcases hp with h | h <;> simp [h]
  have hall0 : ∀ p ∈ [((0 : ℚ), (1 : ℚ)), (0, 2)], p.1 = 0 := by
    intro p hp
    simp only [List.mem_cons, List.mem_singleton, List.not_mem_nil, or_false] at hp
    rcases hp with h | h <;> simp [h]
  have h5 := fit_line_identical_x ⟨[((5 : ℚ), (1 : ℚ)), (5, 2)], 1, 0⟩ 5 (by simp) hall5
  have h0 := fit_line_identical_x ⟨[((0 : ℚ), (1 : ℚ)), (0, 2)], 1, 0⟩ 0 (by simp) hall0
  refine ⟨?_, h0.2.1 rfl, h5.2.2⟩
  rw [h5.1 (by norm_num)]
  have hsum : ([((5 : ℚ), (1 : ℚ)), (5, 2)].map Prod.snd).sum = 3 := by
    simp
    norm_num
  rw [hsum]
  norm_num [FitOutcome.fitted.injEq, AppState.mk.injEq, List.length_cons, List.length_nil]

/-- Membership in the shifted index set. -/
lemma mem_decIdxs (j : ℕ) (sel : List ℕ) : j ∈ decIdxs sel ↔ j + 1 ∈ sel := by
  unfold decIdxs
  simp only [List.mem_map, List.mem_filter, bne_iff_ne, ne_eq]
  constructor
  · rintro ⟨j₀, ⟨hj₀, hne⟩, rfl⟩
    cases j₀ with
    | zero => exact absurd rfl hne
    | succ i => simpa using hj₀
  · intro h
    exact ⟨j + 1, ⟨h, by simp⟩, by simp⟩

/-- Shifting a cons of a successor. -/
lemma decIdxs_cons_succ (i : ℕ) (sel : List ℕ) :
    decIdxs ((i + 1) :: sel) = i :: decIdxs sel := by
  unfold decIdxs
  simp

/-- Unfolding `specRemove` on a cons cell. -/
lemma specRemove_cons (a : ℚ × ℚ) (l : List (ℚ × ℚ)) (sel : List ℕ) :
    specRemove (a :: l) sel
      = if 0 ∈ sel then specRemove l (decIdxs sel) else a :: specRemove l (decIdxs sel) := rfl

/-- Removal with no indices keeps everything. -/
lemma specRemove_nil_sel (l : List (ℚ × ℚ)) : specRemove l [] = l := by
  induction l with
  | nil => rfl
  | cons a t ih =>
    rw [specRemove_cons]
    unfold decIdxs
    simp [ih]

/-- Removal only depends on the index set as a set. -/
lemma specRemove_congr (l : List (ℚ × ℚ)) (s₁ s₂ : List ℕ)
    (h : ∀ j, j ∈ s₁ ↔ j ∈ s₂) : specRemove l s₁ = specRemove l s₂ := by
  induction l generalizing s₁ s₂ with
  | nil => rfl
  | cons a t ih =>
    have h0 : (0 ∈ s₁) ↔ (0 ∈ s₂) := h 0
    have hdec : ∀ j, j ∈ decIdxs s₁ ↔ j ∈ decIdxs s₂ := by
      intro j
      rw [mem_decIdxs, mem_decIdxs]
      exact h _
    rw [specRemove_cons, specRemove_cons]
    by_cases hc : 0 ∈ s₁
    · rw [if_pos hc, if_pos (h0.1 hc), ih _ _ hdec]
    · rw [if_neg hc, if_neg (fun hh => hc (h0.2 hh)), ih _ _ hdec]

/-- Deleting the largest index first commutes with the index-set view: erasing
position `i` and then keeping the survivors of `rest` (all below `i`) keeps
exactly the survivors of `i :: rest`. -/
lemma specRemove_eraseIdx (l : List (ℚ × ℚ)) (i : ℕ) (rest : List ℕ)
    (hi : i < l.length) (hrest : ∀ j ∈ rest, j < i) :
    specRemove (l.eraseIdx i) rest = specRemove l (i :: rest) := by
  induction l generalizing i rest with
  | nil => simp at hi
  | cons a t ih =>
    cases i with
    | zero =>
      have hr : rest = [] := by
        cases rest with
        | nil => rfl
        | cons r rs => exact absurd (hrest r (by simp)) (by omega)
      subst hr
      rw [List.eraseIdx_cons_zero, specRemove_nil_sel]
      have h0 : (0 : ℕ) ∈ [0] := by simp
      rw [specRemove_cons, if_pos h0]
      unfold decIdxs
      simp [specRemove_nil_sel]
    | succ i' =>
      have hi' : i' < t.length := by simpa using hi
      have hrest' : ∀ j ∈ decIdxs rest, j < i' := by
        intro j hj
        have := hrest (j + 1) ((mem_decIdxs j rest).1 hj)
        omega
      rw [List.eraseIdx_cons_succ]
      by_cases h0 : 0 ∈ rest
      · have hl : specRemove (a :: t.eraseIdx i') rest
            = specRemove (t.eraseIdx i') (decIdxs rest) := by
          rw [specRemove_cons, if_pos h0]
        have hr : specRemove (a :: t) ((i' + 1) :: rest)
            = specRemove t (decIdxs ((i' + 1) :: rest)) := by
          rw [specRemove_cons, if_pos (by simp [h0])]
        rw [hl, hr, decIdxs_cons_succ, ih i' (decIdxs rest) hi' hrest']
      · have hl : specRemove (a :: t.eraseIdx i') rest
            = a :: specRemove (t.eraseIdx i') (decIdxs rest) := by
          rw [specRemove_cons, if_neg h0]
        have hr : specRemove (a :: t) ((i' + 1) :: rest)
            = a :: specRemove t (decIdxs ((i' + 1) :: rest)) := by
          rw [specRemove_cons, if_neg (by simp [h0])]
        rw [hl, hr, decIdxs_cons_succ, ih i' (decIdxs rest) hi' hrest']

/-- Folding `eraseIdx` over a strictly descending list of valid indices is the
index-set removal. -/
lemma foldl_eraseIdx (ds : List ℕ) (l : List (ℚ × ℚ))
    (hsorted : ds.Sorted (· > ·)) (hvalid : ∀ j ∈ ds, j < l.length) :
    ds.foldl (fun acc i => acc.eraseIdx i) l = specRemove l ds := by
  induction ds generalizing l with
  | nil => simp [specRemove_nil_sel]
  | cons i rest ih =>
    rw [List.foldl_cons]
    have hi : i < l.length := hvalid i (by simp)
    have hrest_lt : ∀ j ∈ rest, j < i := by
      intro j hj
      exact (List.sorted_cons.1 hsorted).1 j hj
    have hvalid' : ∀ j ∈ rest, j < (l.eraseIdx i).length := by
      intro j hj
      have hlen : (l.eraseIdx i).length + 1 = l.length := List.length_eraseIdx_add_one hi
      have := hrest_lt j hj
      omega
    rw [ih (l.eraseIdx i) (List.sorted_cons.1 hsorted).2 hvalid']
    exact specRemove_eraseIdx l i rest hi hrest_lt

/-- Claim C8: on any point list with a set of valid zero-based indices
(ascending, as `curselection` yields them), `delete_selected` — which
processes the indices in descending order so that earlier indices stay
valid — removes exactly the elements at those positions: the result is
`specRemove`, the order-preserving filter that keeps exactly the elements
whose position is not selected.  An empty selection is a no-op. -/
theorem delete_selected_spec (pts : List (ℚ × ℚ)) (sel : List ℕ)
    (hsorted : sel.Sorted (· < ·)) (hvalid : ∀ i ∈ sel, i < pts.length) :
    delete_selected pts sel = specRemove pts sel ∧ delete_selected pts [] = pts := by
  refine ⟨?_, rfl⟩
  unfold delete_selected
  by_cases hemp : sel.isEmpty
  · have hnil : sel = [] := List.isEmpty_iff.1 hemp
    subst hnil
    simp [specRemove_nil_sel]
  · rw [if_neg hemp]
    have hsorted_rev : sel.reverse.Sorted (· > ·) := by
      rw [List.Sorted, List.pairwise_reverse]
      exact hsorted
    have hvalid_rev : ∀ j ∈ sel.reverse, j < pts.length := by
      intro j hj
      exact hvalid j (List.mem_reverse.1 hj)
    rw [foldl_eraseIdx sel.reverse pts hsorted_rev hvalid_rev]
    exact specRemove_congr pts sel.reverse sel (fun j => List.mem_reverse)

/-- Witness for C8 at the spec's scenario: deleting `{0, 2}` from a four-point
set leaves the original elements of positions 1 and 3, in order. -/
theorem delete_selected_spec_witness :
    delete_selected [((0 : ℚ), (0 : ℚ)), (1, 1), (2, 2), (3, 3)] [0, 2]
      = [(1, 1), (3, 3)] ∧
    delete_selected [((0 : ℚ), (0 : ℚ)), (1, 1), (2, 2), (3, 3)] [] =
      [(0, 0), (1, 1), (2, 2), (3, 3)] := by
  have h := delete_selected_spec [((0 : ℚ), (0 : ℚ)), (1, 1), (2, 2), (3, 3)] [0, 2]
    (by simp) (by simp)
  refine ⟨?_, h.2⟩
  rw [h.1]
  norm_num [specRemove, decIdxs]

end LineFitter
